import Mathlib

/-!
Verification of the sleuth peer-to-peer autodiscovery / RPC library
(github.com/ursiform/sleuth) against its natural-language specification.

The development is a shallow embedding of the Go source into Lean 4:

* bytes are modelled as `List Char` (the group identifier and the frame
  kind tags are ASCII, and the gzip body is opaque at this level);
* Go maps are modelled as association lists with Go-map extensional
  semantics (`alistGet` / `alistInsert` / `alistEraseKey`);
* error values carry only their code trace (`Error.codes`); the human
  readable messages are irrelevant to every property proved here and are
  elided;
* the gzip and JSON collaborators are external libraries, out of scope of
  the repository and specified by interface only; they are modelled from
  the spec as concrete executable codecs (see `gzipBody`, `encChars`).

Each Go function keeps its source name (`zip`, `unzip`, `dispatch`,
`reqMarshal`, ...), prefixed by the receiver type where Go uses methods
(`workersNext` for `(*workers).next`, `clientDo` for `(*Client).Do`, ...).
-/

namespace Sleuth

/-- Frame kind tag for response frames (sleuth.go: `recv = "RECV"`). -/
def recv : String := "RECV"

/-- Frame kind tag for request frames (sleuth.go: `repl = "REPL"`). -/
def repl : String := "REPL"

/-- URL scheme for outbound calls (sleuth.go: `scheme = "sleuth"`). -/
def schemeName : String := "sleuth"

/-- Default group identifier (sleuth.go: `group = "SLEUTH-v0"`). -/
def defaultGroup : String := "SLEUTH-v0"

/-! ### Error codes (error.go) -/

def errDispatchHeader : Nat := 914
def errDispatchAction : Nat := 915
def errScheme : Nat := 916
def errResUnmarshal : Nat := 917
def errResUnmarshalJSON : Nat := 918
def errUnknownService : Nat := 919
def errTimeout : Nat := 920
def errRECV : Nat := 921
def errREPL : Nat := 922
def errAdd : Nat := 924
def errReqMarshal : Nat := 925
def errReqUnmarshal : Nat := 926
def errReqUnmarshalJSON : Nat := 927
def errReqUnmarshalHTTP : Nat := 928
def errReqWhisper : Nat := 929
def errResWhisper : Nat := 930
def errLeave : Nat := 931
def errUnzip : Nat := 932
def errUnzipRead : Nat := 933

/-- Modelled from the spec: the constants `errClosed`, `errDo` and `errWait`
are referenced by client.go but their `const` declarations are not among the
source files; the spec places all error codes in the 900-999 range. Their
exact numeric values are not asserted by any claim; only their identity as
codes matters, so they are assigned fresh values in that range. -/
def errClosed : Nat := 935

/-- Modelled from the spec: escalation code used by `Client.Do`
(see `errClosed`). -/
def errDo : Nat := 936

/-- Modelled from the spec: escalation code used by `Client.WaitFor`
(see `errClosed`). -/
def errWait : Nat := 937

/-- error.go: `Error` carries the ordered list of error codes that led to a
specific error. The message string is elided (no claim mentions it). -/
structure Error where
  codes : List Nat
deriving DecidableEq, Repr

/-- error.go: `newError` builds an error whose `Codes` list holds exactly
the originating site's code. -/
def newError (code : Nat) : Error := { codes := [code] }

/-- error.go: `escalate` appends the escalating site's code at the end of
the code list. -/
def escalate (e : Error) (code : Nat) : Error := { codes := e.codes ++ [code] }

/-! ### Peer and worker pool (peer.go, workers.go) -/

/-- peer.go: location of a peer on the sleuth network and the service it
offers. -/
structure Peer where
  name : String
  node : String
  service : String
  version : String
deriving DecidableEq, Repr

/-- workers.go: per-service worker pool, an ordered peer list plus the
round-robin cursor. The Go `current` field is an `int` that is only ever
assigned 0, incremented, or assigned 1, hence never negative. -/
structure Workers where
  current : Nat
  list : List Peer
deriving DecidableEq, Repr

/-- workers.go: `newWorkers` starts with an empty list and cursor 0. -/
def newWorkers : Workers := { current := 0, list := [] }

/-- workers.go: `(*workers).add`. If a peer with the same name is already
present the pool is unchanged; otherwise the peer is appended. Returns the
resulting pool and the length the Go method returns. -/
def workersAdd (w : Workers) (p : Peer) : Workers × Nat :=
  if w.list.any (fun q => q.name = p.name) then (w, w.list.length)
  else ({ w with list := w.list ++ [p] }, w.list.length + 1)

/-- workers.go: `(*workers).available` is true iff the list is non-empty. -/
def workersAvailable (w : Workers) : Bool := w.list.length > 0

/-- workers.go: `(*workers).next`. Empty list: `nil`. Cursor in range:
return the peer at the cursor and advance. Cursor at or past the end:
set the cursor to 1 and return the peer at index 0. -/
def workersNext (w : Workers) : Option Peer × Workers :=
  if w.list.length = 0 then (none, w)
  else if w.current < w.list.length then
    (w.list.get? w.current, { w with current := w.current + 1 })
  else (w.list.get? 0, { w with current := 1 })

/-- Remove the first peer with the given name from a list, returning the
spliced list and the removed peer (workers.go `remove` loop body). -/
def removeFirst (name : String) : List Peer → Option (List Peer × Peer)
  | [] => none
  | p :: rest =>
    if p.name = name then some (rest, p)
    else
      match removeFirst name rest with
      | some (l, q) => some (p :: l, q)
      | none => none

/-- workers.go: `(*workers).remove`. Linear search for the first peer with
the given name; if found it is spliced out. The cursor is not touched.
Returns the resulting pool, the remaining count, and the removed peer. -/
def workersRemove (w : Workers) (name : String) : Workers × Nat × Option Peer :=
  match removeFirst name w.list with
  | some (l, q) => ({ w with list := l }, l.length, some q)
  | none => (w, w.list.length, none)

/-! ### Association lists with Go-map semantics -/

/-- Go map read: the value at the first matching key, if any. -/
def alistGet {α : Type} (k : String) : List (String × α) → Option α
  | [] => none
  | (k₂, v) :: rest => if k₂ = k then some v else alistGet k rest

/-- Go map delete: remove every pair with the given key (reachable states
hold each key at most once, so this agrees with deleting the single entry). -/
def alistEraseKey {α : Type} (k : String) (l : List (String × α)) :
    List (String × α) :=
  l.filter (fun kv => kv.1 ≠ k)

/-- Go map assignment `m[k] = v`: extensionally, `k` now maps to `v` and
every other key is unchanged. -/
def alistInsert {α : Type} (k : String) (v : α) (l : List (String × α)) :
    List (String × α) :=
  (k, v) :: alistEraseKey k l

/-! ### gzip wrappers (zip.go) -/

/-- Modelled from the spec: gzip compression is supplied by an external
collaborator (Go's `compress/gzip`), out of the repository's scope and
specified by interface only — a lossless codec whose output begins with the
two gzip magic header bytes and whose reader rejects input missing them.
`gzipMagic` is that header. -/
def gzipMagic : List Char := [Char.ofNat 0x1f, Char.ofNat 0x8b]

/-- Modelled from the spec: the body an interface-faithful gzip writer
produces for input `xs` (see `gzipMagic`): the magic header followed by a
losslessly recoverable image of `xs`. -/
def gzipCompress (xs : List Char) : List Char := gzipMagic ++ xs

/-- Modelled from the spec: whether `gzip.NewReader` accepts the input,
i.e. whether the gzip magic header is present (see `gzipMagic`). -/
def gzipHeaderOk (xs : List Char) : Bool := xs.take 2 = gzipMagic

/-- Modelled from the spec: what reading the accepted gzip stream yields
(see `gzipMagic`); inverse to `gzipCompress` on its image. -/
def gzipBody (xs : List Char) : List Char := xs.drop 2

/-- zip.go: `zip` compresses a byte string with gzip. -/
def zip (xs : List Char) : List Char := gzipCompress xs

/-- zip.go: `unzip`. If the gzip reader rejects the input (bad or missing
magic header) the result is `errUnzip`; otherwise the decompressed bytes.
(The Go code has a second failure path, `errUnzipRead`, for a read error on
an accepted stream; an interface-faithful reader never fails on the output
of `zip`, and no claim exercises that path.) -/
def unzip (xs : List Char) : Except Error (List Char) :=
  if gzipHeaderOk xs then .ok (gzipBody xs) else .error (newError errUnzip)

/-! ### JSON codec (spec-modelled external collaborator)

The repository serializes its wire records with `encoding/json`, an external
collaborator specified by interface only. The model below is a concrete
executable lossless record codec: every field is length-prefixed (length in
unary, then a colon, then the payload), so decoding is total on the image of
encoding. Only the codec's interface contract — decode inverts encode — is
used by any proof. -/

/-- Modelled from the spec: length-prefixed encoding of a byte string, the
unit the JSON model composes records from. -/
def encChars (xs : List Char) : List Char :=
  List.replicate xs.length '#' ++ ':' :: xs

/-- Modelled from the spec: decoder for `encChars`; returns the decoded
bytes and the remaining input. -/
def decChars (s : List Char) : Option (List Char × List Char) :=
  let n := (s.takeWhile (fun c => c = '#')).length
  match s.drop n with
  | ':' :: rest => some (rest.take n, rest.drop n)
  | _ => none

/-- Modelled from the spec: length-prefixed encoding of a string (see
`encChars`). -/
def encStr (s : String) : List Char := encChars s.toList

/-- Modelled from the spec: decoder for `encStr`. -/
def decStr (s : List Char) : Option (String × List Char) :=
  (decChars s).map (fun p => (String.mk p.1, p.2))

/-- Modelled from the spec: unary encoding of a natural number (see
`encChars`). -/
def encNat (n : Nat) : List Char := List.replicate n '#' ++ [':']

/-- Modelled from the spec: decoder for `encNat`. -/
def decNat (s : List Char) : Option (Nat × List Char) :=
  let n := (s.takeWhile (fun c => c = '#')).length
  match s.drop n with
  | ':' :: rest => some (n, rest)
  | _ => none

/-- Modelled from the spec: count-prefixed encoding of a list (see
`encChars`). -/
def encList {α : Type} (enc : α → List Char) (l : List α) : List Char :=
  encNat l.length ++ (l.map enc).flatten

/-- Modelled from the spec: decode `n` consecutive items (see `encList`). -/
def decListAux {α : Type} (dec : List Char → Option (α × List Char)) :
    Nat → List Char → Option (List α × List Char)
  | 0, s => some ([], s)
  | n + 1, s =>
    match dec s with
    | some (a, rest) =>
      match decListAux dec n rest with
      | some (l, rest₂) => some (a :: l, rest₂)
      | none => none
    | none => none

/-- Modelled from the spec: decoder for `encList`. -/
def decList {α : Type} (dec : List Char → Option (α × List Char))
    (s : List Char) : Option (List α × List Char) :=
  match decNat s with
  | some (n, rest) => decListAux dec n rest
  | none => none

/-- Modelled from the spec: encoding of one header entry, a name together
with its list of values (see `encChars`). -/
def encHeaderPair (kv : String × List String) : List Char :=
  encStr kv.1 ++ encList encStr kv.2

/-- Modelled from the spec: decoder for `encHeaderPair`. -/
def decHeaderPair (s : List Char) : Option ((String × List String) × List Char) :=
  match decStr s with
  | some (k, s₁) =>
    match decList decStr s₁ with
    | some (vs, s₂) => some ((k, vs), s₂)
    | none => none
  | none => none

/-! ### Wire records (request.go, response.go) -/

/-- request.go: the JSON request schema (`body`, `destination`, `handle`,
`header`, `method`, `url`). -/
structure WireRequest where
  body : List Char
  destination : String
  handle : String
  header : List (String × List String)
  method : String
  url : String
deriving DecidableEq, Repr

/-- response.go: the JSON response schema (`body`, `code`, `handle`,
`header`). -/
structure WireResponse where
  body : List Char
  code : Nat
  handle : String
  header : List (String × List String)
deriving DecidableEq, Repr

/-- Modelled from the spec: JSON encoding of a request record (see
`encChars`). -/
def jsonEncodeReq (r : WireRequest) : List Char :=
  encChars r.body ++ encStr r.destination ++ encStr r.handle ++
    encList encHeaderPair r.header ++ encStr r.method ++ encStr r.url

/-- Modelled from the spec: JSON decoding of a request record; fails unless
the whole input is a well-formed record (see `encChars`). -/
def jsonDecodeReq (s : List Char) : Option WireRequest :=
  (decChars s).bind fun p₁ =>
  (decStr p₁.2).bind fun p₂ =>
  (decStr p₂.2).bind fun p₃ =>
  (decList decHeaderPair p₃.2).bind fun p₄ =>
  (decStr p₄.2).bind fun p₅ =>
  (decStr p₅.2).bind fun p₆ =>
  if p₆.2.isEmpty then
    some { body := p₁.1, destination := p₂.1, handle := p₃.1,
           header := p₄.1, method := p₅.1, url := p₆.1 }
  else none

/-- Modelled from the spec: JSON encoding of a response record (see
`encChars`). -/
def jsonEncodeRes (r : WireResponse) : List Char :=
  encChars r.body ++ encNat r.code ++ encStr r.handle ++
    encList encHeaderPair r.header

/-- Modelled from the spec: JSON decoding of a response record (see
`encChars`). -/
def jsonDecodeRes (s : List Char) : Option WireResponse :=
  (decChars s).bind fun p₁ =>
  (decNat p₁.2).bind fun p₂ =>
  (decStr p₂.2).bind fun p₃ =>
  (decList decHeaderPair p₃.2).bind fun p₄ =>
  if p₄.2.isEmpty then
    some { body := p₁.1, code := p₂.1, handle := p₃.1, header := p₄.1 }
  else none

/-! ### URLs and HTTP values (net/url and net/http, spec-modelled) -/

/-- Modelled from the spec: the fields of Go's `net/url.URL` that the
library reads or writes (scheme, host, path, raw query; user info, opaque
data and fragments never arise on sleuth URLs). -/
structure URL where
  scheme : String
  host : String
  path : String
  rawQuery : String
deriving DecidableEq, Repr

/-- Modelled from the spec: Go's `URL.String` restricted to the field
combinations the library produces. The `//` authority marker appears
exactly when Go writes it for such URLs; percent-escaping is not modelled,
so the rendering is faithful on URLs whose path and query contain no
characters that Go would escape or reparse differently (the round-trip
theorem assumes as much). -/
def urlString (u : URL) : String :=
  (if u.scheme = "" then "" else u.scheme ++ ":") ++
    (if (¬u.scheme = "" ∨ ¬u.host = "") ∧ (¬u.host = "" ∨ ¬u.path = "")
      then "//" ++ u.host else "") ++
    u.path ++
    (if u.rawQuery = "" then "" else "?" ++ u.rawQuery)

/-- Modelled from the spec: Go's `url.Parse` restricted to relative
references — no scheme, no `//` authority, no fragment — which is the only
shape `reqUnmarshal` feeds it (marshalling erases scheme and host). The
path is everything before the first `?`, the raw query everything after. -/
def urlParse (s : String) : Option URL :=
  let cs := s.toList
  some { scheme := "", host := "",
         path := String.mk (cs.takeWhile (fun c => c ≠ '?')),
         rawQuery :=
           match cs.dropWhile (fun c => c ≠ '?') with
           | _ :: r => String.mk r
           | [] => "" }

/-- Modelled from the spec: Go's `http.Request` as the library uses it:
method, URL, header map, and an in-memory body (`reqMarshal` reads the
whole body; the claims quantify over requests with in-memory bodies). -/
structure HttpRequest where
  method : String
  url : URL
  header : List (String × List String)
  body : List Char
deriving DecidableEq, Repr

/-- Modelled from the spec: Go's `http.NewRequest(method, url, body)`:
parse the URL, default an empty method to GET, attach the body. -/
def httpNewRequest (method urlStr : String) (body : List Char) :
    Option HttpRequest :=
  match urlParse urlStr with
  | none => none
  | some u =>
    some { method := if method = "" then "GET" else method,
           url := u, header := [], body := body }

/-- Modelled from the spec: Go's `http.Response` as `resUnmarshal` fills
it: status code, header map, body buffer, content length. -/
structure HttpResponse where
  statusCode : Nat
  header : List (String × List String)
  body : List Char
  contentLength : Nat
deriving DecidableEq, Repr

/-- destination.go: the group, node, and handle of a message. -/
structure Destination where
  group : String
  handle : String
  node : String
deriving DecidableEq, Repr

/-- request.go: `reqMarshal`. Records destination, handle, header, method
and the whole in-memory body; erases the URL's scheme and host (routing
metadata) before rendering it; JSON-encodes, gzips, and prepends the group
identifier and the `REPL` tag. (The Go `errReqMarshal` path fires only if
`json.Marshal` fails, which it cannot on this record type.) -/
def reqMarshal (group dest handle : String) (req : HttpRequest) : List Char :=
  let wire : WireRequest :=
    { body := req.body, destination := dest, handle := handle,
      header := req.header, method := req.method,
      url := urlString { req.url with scheme := "", host := "" } }
  group.toList ++ repl.toList ++ zip (jsonEncodeReq wire)

/-- request.go: `reqUnmarshal`. Unzips (escalating `errReqUnmarshal` on
failure), JSON-decodes (`errReqUnmarshalJSON` on failure), re-materializes
the HTTP request via `http.NewRequest` (`errReqUnmarshalHTTP` on failure),
then installs the transported header map and builds the reply
destination. -/
def reqUnmarshal (group : String) (p : List Char) :
    Except Error (Destination × HttpRequest) :=
  match unzip p with
  | .error e => .error (escalate e errReqUnmarshal)
  | .ok unzipped =>
    match jsonDecodeReq unzipped with
    | none => .error (newError errReqUnmarshalJSON)
    | some wire =>
      match httpNewRequest wire.method wire.url wire.body with
      | none => .error (newError errReqUnmarshalHTTP)
      | some req₀ =>
        .ok ({ group := group, handle := wire.handle, node := wire.destination },
          { req₀ with header := wire.header })

/-- response.go: `resMarshal`. JSON-encodes the response record, gzips,
and prepends the group identifier and the `RECV` tag. -/
def resMarshal (group : String) (res : WireResponse) : List Char :=
  group.toList ++ recv.toList ++ zip (jsonEncodeRes res)

/-- response.go: `resUnmarshal`. Unzips (escalating `errResUnmarshal` on
failure), JSON-decodes (`errResUnmarshalJSON` on failure), and fills an
HTTP response with status code, header map, body and content length,
returning it with the echoed correlation handle. -/
def resUnmarshal (p : List Char) : Except Error (String × HttpResponse) :=
  match unzip p with
  | .error e => .error (escalate e errResUnmarshal)
  | .ok unzipped =>
    match jsonDecodeRes unzipped with
    | none => .error (newError errResUnmarshalJSON)
    | some wire =>
      .ok (wire.handle,
        { statusCode := wire.code, header := wire.header,
          body := wire.body, contentLength := wire.body.length })

/-! ### Client (client.go) -/

/-- client.go: the client state the claims are about. `directory` is the
reverse index node-name → service-type, `services` the service registry
(service → worker pool), `pending` the keys of the pending-call table
(`listener.handles`; the per-slot channels are modelled separately by
`SlotTable`). Timeout duration, logger and fabric handle carry no state any
claim mentions. -/
structure Client where
  closed : Bool
  group : String
  handle : Nat
  directory : List (String × String)
  services : List (String × Workers)
  pending : List String
deriving DecidableEq, Repr

/-- client.go: `newClient` — open client, empty directory, registry and
pending-call table, handle counter at zero. -/
def newClient (group : String) : Client :=
  { closed := false, group := group, handle := 0,
    directory := [], services := [], pending := [] }

/-- client.go: `(*Client).add`. Foreign group: log only, success, no state
change. Empty node or service: `errAdd`, no state change. Otherwise:
associate the name with its service in the directory, idempotently create
the service's worker pool, add the peer to it, and signal the notifier
(the notifier holds no state any claim mentions). -/
def clientAdd (c : Client) (group name node service version : String) :
    Client × Option Error :=
  if group ≠ c.group then (c, none)
  else if node = "" ∨ service = "" then (c, some (newError errAdd))
  else
    let w :=
      match alistGet service c.services with
      | some w => w
      | none => newWorkers
    let w₂ := (workersAdd w
      { name := name, node := node, service := service, version := version }).1
    ({ c with directory := alistInsert name service c.directory,
              services := alistInsert service w₂ c.services }, none)

/-- client.go: `(*Client).remove`. If the reverse entry exists, remove the
peer from its service's pool, drop the pool when it becomes empty, and
delete the reverse entry; otherwise do nothing. -/
def clientRemove (c : Client) (name : String) : Client :=
  match alistGet name c.directory with
  | none => c
  | some service =>
    let c₂ :=
      match alistGet service c.services with
      | none => c
      | some w =>
        let r := workersRemove w name
        if r.2.1 = 0 then { c with services := alistEraseKey service c.services }
        else { c with services := alistInsert service r.1 c.services }
    { c₂ with directory := alistEraseKey name c₂.directory }

/-- client.go: `(*Client).Close`. The deferred write sets `closed` in every
case. An already-closed client yields `errClosed`; a fabric leave failure
yields `errLeave` (the oracle `leaveFails` stands for the fabric's answer);
a failure of `node.Stop` is only logged. -/
def clientClose (leaveFails : Bool) (c : Client) : Client × Option Error :=
  if c.closed then ({ c with closed := true }, some (newError errClosed))
  else if leaveFails then ({ c with closed := true }, some (newError errLeave))
  else ({ c with closed := true }, none)

/-- client.go: `(*Client).receive`. Unmarshal the response payload
(escalating `errRECV` on failure); if the handle has a pending slot,
publish the response into it and delete the slot, else `errRECV`. -/
def clientReceive (c : Client) (payload : List Char) : Client × Option Error :=
  match resUnmarshal payload with
  | .error e => (c, some (escalate e errRECV))
  | .ok pr =>
    if pr.1 ∈ c.pending then ({ c with pending := c.pending.erase pr.1 }, none)
    else (c, some (newError errRECV))

/-- client.go: `(*Client).reply`. Unmarshal the request payload (escalating
`errREPL` on failure) and invoke the user handler; the handler does not
touch the client state. -/
def clientReply (c : Client) (payload : List Char) : Client × Option Error :=
  match reqUnmarshal c.group payload with
  | .error e => (c, some (escalate e errREPL))
  | .ok _ => (c, none)

/-- client.go: `(*Client).dispatch`. Frames shorter than `|group|+4` or not
prefixed by the group are `errDispatchHeader`; the next 4 bytes route to
`receive` (RECV) or `reply` (REPL); anything else is `errDispatchAction`.
The client state is returned alongside so that the no-state-change facts
are statable. -/
def dispatchClient (c : Client) (payload : List Char) : Client × Option Error :=
  let groupLength := c.group.length
  let headerLength := groupLength + 4
  if payload.length < headerLength ∨ payload.take groupLength ≠ c.group.toList
  then (c, some (newError errDispatchHeader))
  else
    let action := String.mk ((payload.drop groupLength).take 4)
    if action = recv then clientReceive c (payload.drop headerLength)
    else if action = repl then clientReply c (payload.drop headerLength)
    else (c, some (newError errDispatchAction))

/-! ### The outbound call (client.go `Do`) -/

/-- The externally observable steps of one `Do` call, in program order:
the fabric whisper and the pending-slot registration. -/
inductive DoEvent where
  | whispered (node : String) (payload : List Char)
  | registered (handle : String)
deriving DecidableEq, Repr

/-- How one `Do` call leaves the caller: failed before blocking, crashed on
a nil peer (Go dereferences the result of `next()` unconditionally), or
blocked awaiting the slot under the given handle. -/
inductive DoOutcome where
  | failed (e : Error)
  | nilPeer
  | awaiting (handle : String)
deriving DecidableEq, Repr

/-- client.go: handles are lowercase hexadecimal renderings of the counter
(`strconv.FormatInt(c.handle, 16)`). -/
def toHex (n : Nat) : String := String.mk (Nat.toDigits 16 n)

/-- client.go: `(*Client).Do` up to its suspension point, in source order:
closed check; handle assignment and increment; scheme check; service
lookup; marshal; `next()` on the pool; fabric whisper (`whisperOk` is the
fabric's answer, `uuid` the local node's UUID); then slot registration and
timeout arming (`listen`), after which the call blocks on the slot. -/
def clientDo (whisperOk : Bool) (uuid : String) (c : Client)
    (req : HttpRequest) : Client × List DoEvent × DoOutcome :=
  if c.closed then (c, [], .failed (escalate (newError errClosed) errDo))
  else
    let handleStr := toHex c.handle
    let c₁ := { c with handle := c.handle + 1 }
    if req.url.scheme ≠ schemeName then (c₁, [], .failed (newError errScheme))
    else
      match alistGet req.url.host c₁.services with
      | none => (c₁, [], .failed (newError errUnknownService))
      | some w =>
        let payload := reqMarshal c₁.group uuid handleStr req
        let n := workersNext w
        let c₂ := { c₁ with services := alistInsert req.url.host n.2 c₁.services }
        match n.1 with
        | none => (c₂, [], .nilPeer)
        | some p =>
          if whisperOk then
            ({ c₂ with pending := handleStr :: c₂.pending },
             [.whispered p.node payload, .registered handleStr],
             .awaiting handleStr)
          else
            (c₂, [.whispered p.node payload], .failed (newError errReqWhisper))

/-! ### Pending-call slots as a transition system (client.go
`listen` / `receive` / `timeout`)

`receive` and `timeout` both run their test-and-delete under the listener
lock, so each executes atomically with respect to the table; an interleaved
execution is a sequence of these atomic steps. `published` logs every value
ever published into a slot's channel: `true` for a response delivered by
`receive`, `false` for the null sentinel delivered by `timeout`. -/

/-- One atomic pending-call-table step: `listen` registering a slot, the
delivery path of `receive` on a handle, or a `timeout` timer firing. -/
inductive SlotOp where
  | register (h : String)
  | deliver (h : String)
  | fire (h : String)
deriving DecidableEq, Repr

/-- The pending-call table plus the log of all publishes into slots. -/
structure SlotTable where
  pending : List String
  published : List (String × Bool)
deriving DecidableEq, Repr

/-- client.go: the effect of one atomic step on the table. `deliver` and
`fire` publish and delete only if the handle is still present (the
test-and-delete both paths perform under the listener lock). -/
def slotStep (s : SlotTable) : SlotOp → SlotTable
  | .register h => { s with pending := h :: s.pending }
  | .deliver h =>
    if h ∈ s.pending then
      { pending := s.pending.erase h, published := s.published ++ [(h, true)] }
    else s
  | .fire h =>
    if h ∈ s.pending then
      { pending := s.pending.erase h, published := s.published ++ [(h, false)] }
    else s

/-- Run a sequence of atomic table steps. -/
def slotRun (s : SlotTable) (ops : List SlotOp) : SlotTable :=
  ops.foldl slotStep s

/-- All values ever published into the slot of handle `h`. -/
def pubsFor (h : String) (s : SlotTable) : List Bool :=
  (s.published.filter (fun q => q.1 = h)).map (fun q => q.2)

/-! ### Registry operations as a transition system (for the registry
invariants) -/

/-- A directory-mutating fabric event: a peer-enter (`add`) or a
peer-exit/leave (`remove`). -/
inductive RegOp where
  | addPeer (group name node service version : String)
  | removePeer (name : String)
deriving DecidableEq, Repr

/-- Apply one fabric directory event to the client. -/
def regStep (c : Client) : RegOp → Client
  | .addPeer g n nd s v => (clientAdd c g n nd s v).1
  | .removePeer n => clientRemove c n

/-- Apply a sequence of fabric directory events. -/
def regRun (c : Client) (ops : List RegOp) : Client :=
  ops.foldl regStep c

/-- The two registry invariants: every pool in the registry is non-empty,
and every reverse-index entry names a peer actually present in its
service's pool. -/
def RegistryInv (c : Client) : Prop :=
  (∀ s w, alistGet s c.services = some w → w.list ≠ []) ∧
  (∀ n s, alistGet n c.directory = some s →
    ∃ w, alistGet s c.services = some w ∧ ∃ p ∈ w.list, p.name = n)

/-- Whether an event is a slot registration. -/
def isRegistered : DoEvent → Bool
  | .registered _ => true
  | _ => false

/-- Whether an event is a fabric whisper. -/
def isWhispered : DoEvent → Bool
  | .whispered _ _ => true
  | _ => false

/-- Every whisper in the trace is preceded by a slot registration — the
ordering property asserted for `Do`'s accepted requests (the pending-call
table already contains the handle at the moment whisper is invoked). -/
def regPrecedesWhisper (evs : List DoEvent) : Bool :=
  (List.range evs.length).all fun j =>
    !((evs.get? j).any isWhispered) ||
      (List.range j).any fun i => (evs.get? i).any isRegistered

/-! ### Concrete example states (used by witnesses and counterexamples) -/

/-- A client in group `G` that knows one peer offering service `svc`. -/
def egClient : Client := (clientAdd (newClient "G") "G" "peer1" "node1" "svc" "1").1

/-- `egClient` after `Close`: the closed flag is set. -/
def egClosedClient : Client := { egClient with closed := true }

/-- A well-formed sleuth request addressed to service `svc`. -/
def egRequest : HttpRequest :=
  { method := "GET",
    url := { scheme := "sleuth", host := "svc", path := "/x", rawQuery := "q=1" },
    header := [("A", ["b"])], body := ['h', 'i'] }

/-! ## Theorems -/

/-- C3: For every worker pool, `next()` returns the peer at the current
cursor position and then advances the cursor; if the cursor meets or
exceeds the list length (and the list is non-empty), `next()` sets the
cursor to 1 and returns the peer at index 0; on an empty pool `next()`
returns absent; `remove` never normalizes the cursor; and in the concrete
two-peer pool whose cursor sits at the old length 2, removal of the head
element makes the two following `next()` calls both return the peer at
index 0. -/
theorem claim_C3_round_robin_next :
    (∀ w : Workers, w.list = [] → workersNext w = (none, w)) ∧
    (∀ w : Workers, w.current < w.list.length →
      workersNext w = (w.list.get? w.current, { w with current := w.current + 1 })) ∧
    (∀ w : Workers, w.list ≠ [] → w.list.length ≤ w.current →
      workersNext w = (w.list.get? 0, { w with current := 1 })) ∧
    (∀ (w : Workers) (name : String), (workersRemove w name).1.current = w.current) ∧
    (workersRemove { current := 2, list :=
        [{ name := "a", node := "na", service := "s", version := "" },
         { name := "b", node := "nb", service := "s", version := "" }] } "a" =
      ({ current := 2, list := [{ name := "b", node := "nb", service := "s", version := "" }] }, 1,
       some { name := "a", node := "na", service := "s", version := "" })) ∧
    (workersNext { current := 2, list := [{ name := "b", node := "nb", service := "s", version := "" }] } =
      (({ current := 2, list := [{ name := "b", node := "nb", service := "s", version := "" }] } : Workers).list.get? 0,
       { current := 1, list := [{ name := "b", node := "nb", service := "s", version := "" }] })) ∧
    (workersNext { current := 1, list := [{ name := "b", node := "nb", service := "s", version := "" }] } =
      (({ current := 1, list := [{ name := "b", node := "nb", service := "s", version := "" }] } : Workers).list.get? 0,
       { current := 1, list := [{ name := "b", node := "nb", service := "s", version := "" }] })) := by
  refine ⟨?_, ?_, ?_, ?_, ?_, ?_, ?_⟩
  · intro w h
    simp [workersNext, h]
  · intro w h
    have h0 : ¬ w.list.length = 0 := by omega
    simp [workersNext, h0, h]
  · intro w h1 h2
    have h0 : ¬ w.list.length = 0 := by
      simpa [List.length_eq_zero] using h1
    have h3 : ¬ w.current < w.list.length := by omega
    simp [workersNext, h0, h3]
  · intro w name
    unfold workersRemove
    cases h : removeFirst name w.list with
    | none => simp
    | some pr => simp
  · rfl
  · rfl
  · rfl

/-- Witness for C3 at concrete pools: the empty pool returns absent, a
two-peer pool with cursor 0 returns the head and advances, and a cursor
past the end wraps to 1 returning index 0. -/
theorem claim_C3_round_robin_next_witness :
    workersNext { current := 0, list := [] } = (none, { current := 0, list := [] }) ∧
    workersNext { current := 5, list :=
        [{ name := "a", node := "na", service := "s", version := "" }] } =
      (some { name := "a", node := "na", service := "s", version := "" },
       { current := 1, list := [{ name := "a", node := "na", service := "s", version := "" }] }) := by
  constructor
  · exact claim_C3_round_robin_next.1 _ rfl
  · have h := claim_C3_round_robin_next.2.2.1
      { current := 5, list := [{ name := "a", node := "na", service := "s", version := "" }] }
      (by decide) (by decide)
    simpa using h

/-- `unzip` inverts `zip` (shared by the round-trip claims). -/
theorem unzip_zip (xs : List Char) : unzip (zip xs) = .ok xs := by
  simp [unzip, zip, gzipCompress, gzipHeaderOk, gzipBody, gzipMagic]

/-- C8: `unzip (zip x) = x` for every byte string, and `unzip` on input
missing the gzip magic header fails with an error whose first code is
`errUnzip`. -/
theorem claim_C8_zip_roundtrip :
    (∀ xs : List Char, unzip (zip xs) = .ok xs) ∧
    (∀ xs : List Char, gzipHeaderOk xs = false →
      ∃ e, unzip xs = .error e ∧ e.codes.head? = some errUnzip) := by
  constructor
  · exact unzip_zip
  · intro xs h
    exact ⟨newError errUnzip, by simp [unzip, h], rfl⟩

/-- Witness for C8: the round trip on a concrete byte string, and a
concrete non-gzip input rejected with first code `errUnzip`. -/
theorem claim_C8_zip_roundtrip_witness :
    unzip (zip ['h', 'i']) = .ok ['h', 'i'] ∧
    ∃ e, unzip ['h', 'i'] = .error e ∧ e.codes.head? = some errUnzip := by
  exact ⟨claim_C8_zip_roundtrip.1 ['h', 'i'],
    claim_C8_zip_roundtrip.2 ['h', 'i'] (by decide)⟩

/-- Folding `escalate` over a list of codes appends them in order. -/
theorem escalate_foldl (cs : List Nat) (e : Error) :
    (cs.foldl escalate e).codes = e.codes ++ cs := by
  induction cs generalizing e with
  | nil => simp
  | cons c rest ih => simp [escalate, ih, List.append_assoc]

/-- C9: `newError` places the originating site's code at index 0, each
`escalate` appends the escalating site's code at the end, a k-step
propagation yields the chain deepest-first, and an inbound response
payload that fails to unzip surfaces from `receive` as
`[errUnzip, errResUnmarshal, errRECV]`. -/
theorem claim_C9_error_code_order :
    (∀ code : Nat, (newError code).codes = [code]) ∧
    (∀ (e : Error) (code : Nat), (escalate e code).codes = e.codes ++ [code]) ∧
    (∀ (code : Nat) (cs : List Nat),
      (cs.foldl escalate (newError code)).codes = code :: cs) ∧
    (∀ (c : Client) (p : List Char), gzipHeaderOk p = false →
      (clientReceive c p).2 = some { codes := [errUnzip, errResUnmarshal, errRECV] }) := by
  refine ⟨fun _ => rfl, fun _ _ => rfl, ?_, ?_⟩
  · intro code cs
    simp [escalate_foldl, newError]
  · intro c p h
    simp [clientReceive, resUnmarshal, unzip, h, escalate, newError,
      errUnzip, errResUnmarshal, errRECV]

/-- Witness for C9: the receive path on a concrete non-gzip payload and on
a concrete three-step escalation. -/
theorem claim_C9_error_code_order_witness :
    ((([errResUnmarshal, errRECV] : List Nat).foldl escalate
        (newError errUnzip)).codes = [errUnzip, errResUnmarshal, errRECV]) ∧
    (clientReceive egClient ['x']).2 =
      some { codes := [errUnzip, errResUnmarshal, errRECV] } := by
  exact ⟨claim_C9_error_code_order.2.2.1 errUnzip [errResUnmarshal, errRECV],
    claim_C9_error_code_order.2.2.2 egClient ['x'] (by decide)⟩

/-- C6: `Close` always sets the closed flag (even when the fabric leave
fails), a second `Close` returns an error whose code list is exactly
`[errClosed]`, and `Do` on a closed client fails with a code chain
beginning with `errClosed`. -/
theorem claim_C6_closed_client :
    (∀ (l : Bool) (c : Client), (clientClose l c).1.closed = true) ∧
    (∀ (l₁ l₂ : Bool) (c : Client),
      (clientClose l₂ (clientClose l₁ c).1).2 = some { codes := [errClosed] }) ∧
    (∀ (whisperOk : Bool) (uuid : String) (c : Client) (req : HttpRequest),
      c.closed = true →
      ∃ e, clientDo whisperOk uuid c req = (c, [], .failed e) ∧
        e.codes.head? = some errClosed) := by
  refine ⟨?_, ?_, ?_⟩
  · intro l c
    unfold clientClose
    split <;> try rfl
    split <;> rfl
  · intro l₁ l₂ c
    cases hc : c.closed <;> cases l₁ <;> simp [clientClose, hc, newError]
  · intro wok uuid c req h
    exact ⟨escalate (newError errClosed) errDo, by simp [clientDo, h], rfl⟩

/-- Witness for C6: a concrete closed client's `Do` fails with a chain
starting `errClosed`. -/
theorem claim_C6_closed_client_witness :
    ∃ e, clientDo true "u" egClosedClient egRequest = (egClosedClient, [], .failed e) ∧
      e.codes.head? = some errClosed := by
  exact claim_C6_closed_client.2.2 true "u" egClosedClient egRequest rfl

/-- C10: `Do` on a non-closed client increments the correlation-handle
counter exactly once in every branch — in particular calls failing with
`errScheme` or `errUnknownService` still consume a handle — and in a
concrete run the handles observed on the wire by two successful calls
separated by a failed one are "0" and "2", not consecutive. -/
theorem claim_C10_handle_consumed :
    (∀ (whisperOk : Bool) (uuid : String) (c : Client) (req : HttpRequest),
      c.closed = false →
      (clientDo whisperOk uuid c req).1.handle = c.handle + 1) ∧
    (∀ (whisperOk : Bool) (uuid : String) (c : Client) (req : HttpRequest),
      c.closed = false → req.url.scheme ≠ schemeName →
      (clientDo whisperOk uuid c req).2.2 = .failed (newError errScheme) ∧
      (clientDo whisperOk uuid c req).1.handle = c.handle + 1) ∧
    (∀ (whisperOk : Bool) (uuid : String) (c : Client) (req : HttpRequest),
      c.closed = false → req.url.scheme = schemeName →
      alistGet req.url.host c.services = none →
      (clientDo whisperOk uuid c req).2.2 = .failed (newError errUnknownService) ∧
      (clientDo whisperOk uuid c req).1.handle = c.handle + 1) ∧
    ((clientDo true "u" egClient egRequest).2.1.contains (.registered "0") = true ∧
     (clientDo true "u" (clientDo true "u" egClient egRequest).1
        { egRequest with url := { egRequest.url with scheme := "http" } }).2.2 =
       .failed (newError errScheme) ∧
     (clientDo true "u"
        (clientDo true "u" (clientDo true "u" egClient egRequest).1
          { egRequest with url := { egRequest.url with scheme := "http" } }).1
        egRequest).2.1.contains (.registered "2") = true) := by
  refine ⟨?_, ?_, ?_, ?_, ?_, ?_⟩
  · intro wok uuid c req h
    unfold clientDo
    simp only [h, Bool.false_eq_true, if_false]
    split
    · rfl
    · split
      · rfl
      · split
        · rfl
        · split <;> rfl
  · intro wok uuid c req h hs
    unfold clientDo
    simp [h, hs]
  · intro wok uuid c req h hs hg
    unfold clientDo
    have : ¬ req.url.scheme ≠ schemeName := by simp [hs]
    simp only [h, Bool.false_eq_true, if_false, this]
    simp [hg]
  · decide
  · decide
  · decide

/-- Witness for C10: on the concrete open client, a successful call, a
bad-scheme call and an unknown-service call each advance the counter by
one. -/
theorem claim_C10_handle_consumed_witness :
    (clientDo true "u" egClient egRequest).1.handle = egClient.handle + 1 ∧
    (clientDo true "u" egClient
      { egRequest with url := { egRequest.url with scheme := "http" } }).2.2 =
      .failed (newError errScheme) ∧
    (clientDo true "u" egClient
      { egRequest with url := { egRequest.url with host := "nosvc" } }).2.2 =
      .failed (newError errUnknownService) := by
  refine ⟨claim_C10_handle_consumed.1 true "u" egClient egRequest (by decide),
    (claim_C10_handle_consumed.2.1 true "u" egClient _ (by decide) (by decide)).1,
    (claim_C10_handle_consumed.2.2.1 true "u" egClient _ (by decide) (by decide)
      (by decide)).1⟩

/-- On a frame made of the client's group, a 4-byte action and a rest,
`dispatch` routes
on the action alone. -/
theorem dispatchClient_route (c : Client) (act rest : List Char)
    (h4 : act.length = 4) :
    dispatchClient c (c.group.toList ++ act ++ rest) =
      (if String.mk act = recv then clientReceive c rest
       else if String.mk act = repl then clientReply c rest
       else (c, some (newError errDispatchAction))) := by
  have hg : c.group.toList.length = c.group.length := rfl
  have htake : (c.group.toList ++ act ++ rest).take c.group.length = c.group.toList := by
    rw [List.append_assoc]
    exact List.take_left' hg
  have hdropg : (c.group.toList ++ act ++ rest).drop c.group.length = act ++ rest := by
    rw [List.append_assoc]
    exact List.drop_left' hg
  have hdroph : (c.group.toList ++ act ++ rest).drop (c.group.length + 4) = rest :=
    List.drop_left' (by simp [List.length_append, hg, h4])
  unfold dispatchClient
  rw [if_neg]
  · rw [hdropg, List.take_left' h4, hdroph]
  · push_neg
    refine ⟨?_, htake⟩
    simp [List.length_append, hg, h4]

/-- C5: `dispatch` rejects every payload shorter than `|group|+4` or not
prefixed (case-sensitively) by the group with `errDispatchHeader` and no
state change; with a matching prefix the 4-byte action `RECV` routes the
rest to the response path, `REPL` to the request path, and any other
action fails with `errDispatchAction` and no state change; concretely a
lowercase group prefix or a lowercase action tag is rejected. -/
theorem claim_C5_dispatch :
    (∀ (c : Client) (p : List Char),
      p.length < c.group.length + 4 ∨ p.take c.group.length ≠ c.group.toList →
      dispatchClient c p = (c, some (newError errDispatchHeader))) ∧
    (∀ (c : Client) (rest : List Char),
      dispatchClient c (c.group.toList ++ recv.toList ++ rest) = clientReceive c rest) ∧
    (∀ (c : Client) (rest : List Char),
      dispatchClient c (c.group.toList ++ repl.toList ++ rest) = clientReply c rest) ∧
    (∀ (c : Client) (act rest : List Char),
      act.length = 4 → String.mk act ≠ recv → String.mk act ≠ repl →
      dispatchClient c (c.group.toList ++ act ++ rest) =
        (c, some (newError errDispatchAction))) ∧
    (dispatchClient egClient "gRECV".toList =
      (egClient, some (newError errDispatchHeader))) ∧
    (dispatchClient egClient "Grecv".toList =
      (egClient, some (newError errDispatchAction))) := by
  refine ⟨?_, ?_, ?_, ?_, ?_, ?_⟩
  · intro c p h
    unfold dispatchClient
    rw [if_pos h]
  · intro c rest
    rw [dispatchClient_route c recv.toList rest rfl]
    simp
  · intro c rest
    rw [dispatchClient_route c repl.toList rest rfl]
    simp [recv, repl]
  · intro c act rest h4 hr hp
    rw [dispatchClient_route c act rest h4, if_neg hr, if_neg hp]
  · decide
  · decide

/-- Witness for C5: concrete rejections and routes on the example client
(group `G`). -/
theorem claim_C5_dispatch_witness :
    dispatchClient egClient [] = (egClient, some (newError errDispatchHeader)) ∧
    dispatchClient egClient "GFAIL".toList =
      (egClient, some (newError errDispatchAction)) ∧
    dispatchClient egClient ("G".toList ++ recv.toList ++ ['x']) =
      clientReceive egClient ['x'] := by
  refine ⟨claim_C5_dispatch.1 egClient [] (by decide), ?_, ?_⟩
  · have h := claim_C5_dispatch.2.2.2.1 egClient "FAIL".toList []
      (by decide) (by decide) (by decide)
    simpa using h
  · exact claim_C5_dispatch.2.1 egClient ['x']

/-- C1 counterexample: a concrete accepted request on which `Do`'s trace
shows the fabric whisper happening with no prior slot registration — the
pending-call table does not yet contain the handle at the moment whisper
is invoked, refuting the claimed ordering. -/
theorem claim_C1_counterexample :
    (clientDo true "u" egClient egRequest).2.2 = .awaiting "0" ∧
    regPrecedesWhisper (clientDo true "u" egClient egRequest).2.1 = false := by
  decide

/-- C1 (amended): for every accepted request, `Do` hands the framed
request to the fabric's whisper first; the pending-call slot is registered
(and its timeout armed) only after the whisper succeeds, and before `Do`
blocks reading the slot — so the trace is exactly whisper then register,
the call then awaits the handle, and the handle is in the pending table
at the suspension point. -/
theorem claim_C1_whisper_then_register :
    ∀ (uuid : String) (c : Client) (req : HttpRequest) (w : Workers) (p : Peer),
      c.closed = false → req.url.scheme = schemeName →
      alistGet req.url.host c.services = some w →
      (workersNext w).1 = some p →
      (clientDo true uuid c req).2.1 =
        [.whispered p.node (reqMarshal c.group uuid (toHex c.handle) req),
         .registered (toHex c.handle)] ∧
      (clientDo true uuid c req).2.2 = .awaiting (toHex c.handle) ∧
      toHex c.handle ∈ (clientDo true uuid c req).1.pending := by
  intro uuid c req w p hc hs hw hn
  have hs' : ¬ req.url.scheme ≠ schemeName := by simp [hs]
  refine ⟨?_, ?_, ?_⟩ <;>
    simp [clientDo, hc, hs', hw, hn]

/-- Witness for C1 (amended): the concrete accepted request on `egClient`
whispers to `node1` and then registers handle "0". -/
theorem claim_C1_whisper_then_register_witness :
    (clientDo true "u" egClient egRequest).2.1 =
      [.whispered "node1" (reqMarshal egClient.group "u" (toHex egClient.handle) egRequest),
       .registered (toHex egClient.handle)] ∧
    (clientDo true "u" egClient egRequest).2.2 = .awaiting (toHex egClient.handle) ∧
    toHex egClient.handle ∈ (clientDo true "u" egClient egRequest).1.pending := by
  have h := claim_C1_whisper_then_register "u" egClient egRequest
    { current := 0, list := [{ name := "peer1", node := "node1", service := "svc", version := "1" }] }
    { name := "peer1", node := "node1", service := "svc", version := "1" }
    (by decide) (by decide) (by decide) (by decide)
  simpa using h

/-- One atomic table step other than `register h` preserves the resource
count of handle `h`: its occurrences in the table plus the publishes into
its slot. -/
theorem slotStep_inv (h : String) (s : SlotTable) (op : SlotOp)
    (hop : op ≠ .register h)
    (hs : s.pending.count h + (pubsFor h s).length = 1) :
    (slotStep s op).pending.count h + (pubsFor h (slotStep s op)).length = 1 := by
  cases op with
  | register h₂ =>
    have hne : ¬ h₂ = h := fun e => hop (by rw [e])
    simpa [slotStep, pubsFor, List.count_cons, hne] using hs
  | deliver h₂ =>
    by_cases hmem : h₂ ∈ s.pending
    · by_cases heq : h₂ = h
      · subst heq
        have hpos : 0 < s.pending.count h₂ := List.count_pos_iff.mpr hmem
        simp only [slotStep, if_pos hmem, pubsFor, List.filter_append,
          List.map_append, List.length_append, List.count_erase_self]
        simp [pubsFor] at hs ⊢
        omega
      · have : (List.erase s.pending h₂).count h = s.pending.count h := by
          exact List.count_erase_of_ne (fun e => heq e.symm) s.pending
        simp only [slotStep, if_pos hmem, pubsFor, List.filter_append,
          List.map_append, List.length_append, this]
        simp [pubsFor, heq] at hs ⊢
        omega
    · simpa [slotStep, hmem] using hs
  | fire h₂ =>
    by_cases hmem : h₂ ∈ s.pending
    · by_cases heq : h₂ = h
      · subst heq
        have hpos : 0 < s.pending.count h₂ := List.count_pos_iff.mpr hmem
        simp only [slotStep, if_pos hmem, pubsFor, List.filter_append,
          List.map_append, List.length_append, List.count_erase_self]
        simp [pubsFor] at hs ⊢
        omega
      · have : (List.erase s.pending h₂).count h = s.pending.count h := by
          exact List.count_erase_of_ne (fun e => heq e.symm) s.pending
        simp only [slotStep, if_pos hmem, pubsFor, List.filter_append,
          List.map_append, List.length_append, this]
        simp [pubsFor, heq] at hs ⊢
        omega
    · simpa [slotStep, hmem] using hs

/-- The resource count of handle `h` stays 1 across any step sequence with
no re-registration of `h`. -/
theorem slotRun_inv (h : String) (ops : List SlotOp) (s : SlotTable)
    (hops : ∀ op ∈ ops, op ≠ .register h)
    (hs : s.pending.count h + (pubsFor h s).length = 1) :
    (slotRun s ops).pending.count h + (pubsFor h (slotRun s ops)).length = 1 := by
  induction ops generalizing s with
  | nil => simpa [slotRun] using hs
  | cons op rest ih =>
    have h₁ : op ≠ .register h := hops op (List.mem_cons_self op rest)
    have h₂ : ∀ o ∈ rest, o ≠ SlotOp.register h :=
      fun o ho => hops o (List.mem_cons_of_mem op ho)
    simpa [slotRun] using ih (slotStep s op) h₂ (slotStep_inv h s op h₁ hs)

/-- A handle absent from the table stays absent under any step sequence
that never registers it. -/
theorem slotRun_not_pending (h : String) (ops : List SlotOp) (s : SlotTable)
    (hops : ∀ op ∈ ops, op ≠ .register h)
    (hnp : h ∉ s.pending) : h ∉ (slotRun s ops).pending := by
  induction ops generalizing s with
  | nil => simpa [slotRun] using hnp
  | cons op rest ih =>
    have h₂ : ∀ o ∈ rest, o ≠ SlotOp.register h :=
      fun o ho => hops o (List.mem_cons_of_mem op ho)
    have hstep : h ∉ (slotStep s op).pending := by
      cases op with
      | register h₃ =>
        have hne : ¬ h₃ = h := fun e => hops _ (List.mem_cons_self _ _) (by rw [e])
        simp [slotStep]
        exact ⟨fun e => hne e.symm, hnp⟩
      | deliver h₃ =>
        by_cases hmem : h₃ ∈ s.pending
        · simp only [slotStep, if_pos hmem]
          exact fun hin => hnp (List.mem_of_mem_erase hin)
        · simpa [slotStep, hmem] using hnp
      | fire h₃ =>
        by_cases hmem : h₃ ∈ s.pending
        · simp only [slotStep, if_pos hmem]
          exact fun hin => hnp (List.mem_of_mem_erase hin)
        · simpa [slotStep, hmem] using hnp
    simpa [slotRun] using ih (slotStep s op) h₂ hstep

/-- Once a `fire h` step has run (the timer always eventually fires), the
handle is no longer pending. -/
theorem slotRun_fire_removes (h : String) (ops : List SlotOp) (s : SlotTable)
    (hops : ∀ op ∈ ops, op ≠ .register h)
    (hs : s.pending.count h + (pubsFor h s).length = 1)
    (hf : SlotOp.fire h ∈ ops) : h ∉ (slotRun s ops).pending := by
  induction ops generalizing s with
  | nil => cases hf
  | cons op rest ih =>
    have h₁ : op ≠ .register h := hops op (List.mem_cons_self op rest)
    have h₂ : ∀ o ∈ rest, o ≠ SlotOp.register h :=
      fun o ho => hops o (List.mem_cons_of_mem op ho)
    by_cases hop : op = SlotOp.fire h
    · subst hop
      have hstep : h ∉ (slotStep s (SlotOp.fire h)).pending := by
        by_cases hmem : h ∈ s.pending
        · have hcnt : s.pending.count h = 1 := by
            have hpos : 0 < s.pending.count h := List.count_pos_iff.mpr hmem
            omega
          simp only [slotStep, if_pos hmem]
          exact List.count_eq_zero.mp (by rw [List.count_erase_self, hcnt])
        · simp [slotStep, hmem]
      simpa [slotRun] using
        slotRun_not_pending h rest (slotStep s (SlotOp.fire h)) h₂ hstep
    · have hf₂ : SlotOp.fire h ∈ rest := by
        rcases List.mem_cons.mp hf with he | hr
        · exact absurd he.symm hop
        · exact hr
      simpa [slotRun] using ih (slotStep s op) h₂ (slotStep_inv h s op h₁ hs) hf₂

/-- C2: for a slot registered exactly once and never re-registered, at
most one producer ever publishes into it — the publish log for its handle
is empty, a single response, or a single null sentinel, never both; a
producer that publishes also removes the slot; and once the timer has
fired (as it always eventually does) exactly one publish has happened and
the slot is gone. -/
theorem claim_C2_single_producer :
    ∀ (s : SlotTable) (h : String) (ops : List SlotOp),
      s.pending.count h = 1 → pubsFor h s = [] →
      (∀ op ∈ ops, op ≠ .register h) →
      (pubsFor h (slotRun s ops) = [] ∨ pubsFor h (slotRun s ops) = [true] ∨
        pubsFor h (slotRun s ops) = [false]) ∧
      (pubsFor h (slotRun s ops) ≠ [] → h ∉ (slotRun s ops).pending) ∧
      (SlotOp.fire h ∈ ops →
        (pubsFor h (slotRun s ops) = [true] ∨ pubsFor h (slotRun s ops) = [false]) ∧
        h ∉ (slotRun s ops).pending) := by
  intro s h ops hcnt hpub hops
  have hsum : s.pending.count h + (pubsFor h s).length = 1 := by
    simp [hcnt, hpub]
  have hinv := slotRun_inv h ops s hops hsum
  have hlen : (pubsFor h (slotRun s ops)).length ≤ 1 := by omega
  have hshape : pubsFor h (slotRun s ops) = [] ∨
      pubsFor h (slotRun s ops) = [true] ∨ pubsFor h (slotRun s ops) = [false] := by
    rcases hp : pubsFor h (slotRun s ops) with _ | ⟨b, rest⟩
    · exact Or.inl rfl
    · rw [hp] at hlen
      have : rest = [] := by
        cases rest with
        | nil => rfl
        | cons x xs => simp at hlen
      subst this
      cases b
      · exact Or.inr (Or.inr rfl)
      · exact Or.inr (Or.inl rfl)
  refine ⟨hshape, ?_, ?_⟩
  · intro hne
    have : 0 < (pubsFor h (slotRun s ops)).length := List.length_pos.mpr hne
    have : (slotRun s ops).pending.count h = 0 := by omega
    simpa [List.count_eq_zero] using this
  · intro hf
    have hout := slotRun_fire_removes h ops s hops hsum hf
    have hz : (slotRun s ops).pending.count h = 0 := by
      simpa [List.count_eq_zero] using hout
    have : (pubsFor h (slotRun s ops)).length = 1 := by omega
    rcases hshape with hsh | hsh | hsh
    · rw [hsh] at this
      simp at this
    · exact ⟨Or.inl hsh, hout⟩
    · exact ⟨Or.inr hsh, hout⟩

/-- Witness for C2: a concrete slot on which the delivery path wins and the
later timer finds nothing — the publish log holds exactly the response. -/
theorem claim_C2_single_producer_witness :
    (pubsFor "0" (slotRun { pending := ["0"], published := [] }
        [SlotOp.deliver "0", SlotOp.fire "0"]) = [] ∨
      pubsFor "0" (slotRun { pending := ["0"], published := [] }
        [SlotOp.deliver "0", SlotOp.fire "0"]) = [true] ∨
      pubsFor "0" (slotRun { pending := ["0"], published := [] }
        [SlotOp.deliver "0", SlotOp.fire "0"]) = [false]) ∧
    (pubsFor "0" (slotRun { pending := ["0"], published := [] }
        [SlotOp.deliver "0", SlotOp.fire "0"]) ≠ [] →
      "0" ∉ (slotRun { pending := ["0"], published := [] }
        [SlotOp.deliver "0", SlotOp.fire "0"]).pending) ∧
    (SlotOp.fire "0" ∈ [SlotOp.deliver "0", SlotOp.fire "0"] →
      (pubsFor "0" (slotRun { pending := ["0"], published := [] }
          [SlotOp.deliver "0", SlotOp.fire "0"]) = [true] ∨
        pubsFor "0" (slotRun { pending := ["0"], published := [] }
          [SlotOp.deliver "0", SlotOp.fire "0"]) = [false]) ∧
      "0" ∉ (slotRun { pending := ["0"], published := [] }
        [SlotOp.deliver "0", SlotOp.fire "0"]).pending) := by
  exact claim_C2_single_producer { pending := ["0"], published := [] } "0"
    [SlotOp.deliver "0", SlotOp.fire "0"] (by decide) (by decide)
    (by decide)

/-- Reading the key just written. -/
theorem alistGet_insert_self {α : Type} (k : String) (v : α) (l : List (String × α)) :
    alistGet k (alistInsert k v l) = some v := by
  simp [alistInsert, alistGet]

/-- Reading a deleted key. -/
theorem alistGet_eraseKey_self {α : Type} (k : String) (l : List (String × α)) :
    alistGet k (alistEraseKey k l) = none := by
  induction l with
  | nil => rfl
  | cons kv rest ih =>
    obtain ⟨k₂, v₂⟩ := kv
    by_cases hk : k₂ = k
    · simpa [alistEraseKey, List.filter_cons, hk] using ih
    · simpa [alistEraseKey, List.filter_cons, alistGet, hk] using ih

/-- Reading another key after a delete. -/
theorem alistGet_eraseKey_ne {α : Type} (k k' : String) (l : List (String × α))
    (h : k' ≠ k) : alistGet k' (alistEraseKey k l) = alistGet k' l := by
  have h' : ¬ k = k' := fun e => h e.symm
  induction l with
  | nil => rfl
  | cons kv rest ih =>
    obtain ⟨k₂, v₂⟩ := kv
    by_cases hk : k₂ = k
    · subst hk
      simp only [alistEraseKey, List.filter_cons, ne_eq, decide_not] at ih ⊢
      simp [alistGet, h', ih]
    · simp only [alistEraseKey, List.filter_cons, ne_eq, decide_not] at ih ⊢
      simp [alistGet, hk, ih]

/-- Reading another key after a write. -/
theorem alistGet_insert_ne {α : Type} (k k' : String) (v : α) (l : List (String × α))
    (h : k' ≠ k) : alistGet k' (alistInsert k v l) = alistGet k' l := by
  have h' : ¬ k = k' := fun e => h e.symm
  simp only [alistInsert, alistGet]
  rw [if_neg h']
  exact alistGet_eraseKey_ne k k' l h

/-- `add` never loses a pool member. -/
theorem workersAdd_mem (w : Workers) (p q : Peer) (hq : q ∈ w.list) :
    q ∈ (workersAdd w p).1.list := by
  unfold workersAdd
  split
  · exact hq
  · exact List.mem_append_left [p] hq

/-- After `add`, some pool member bears the added peer's name. -/
theorem workersAdd_has_name (w : Workers) (p : Peer) :
    ∃ q ∈ (workersAdd w p).1.list, q.name = p.name := by
  unfold workersAdd
  by_cases h : w.list.any (fun q => q.name = p.name)
  · rw [if_pos h]
    simpa [List.any_eq_true] using h
  · rw [if_neg h]
    exact ⟨p, by simp, rfl⟩

/-- After `add`, the pool is non-empty. -/
theorem workersAdd_nonempty (w : Workers) (p : Peer) :
    (workersAdd w p).1.list ≠ [] := by
  unfold workersAdd
  split
  · next h =>
    rcases List.any_eq_true.mp h with ⟨q, hq, _⟩
    exact List.ne_nil_of_mem hq
  · simp

/-- What a successful first-occurrence removal guarantees: the removed
peer bears the searched name, the list shrinks by one, and every member
with a different name survives. -/
theorem removeFirst_eq_some (name : String) (l l' : List Peer) (q : Peer)
    (h : removeFirst name l = some (l', q)) :
    q.name = name ∧ l'.length + 1 = l.length ∧
      ∀ p ∈ l, p.name ≠ name → p ∈ l' := by
  induction l generalizing l' with
  | nil => cases h
  | cons p₀ rest ih =>
    unfold removeFirst at h
    by_cases hp : p₀.name = name
    · rw [if_pos hp] at h
      obtain ⟨rfl, rfl⟩ : rest = l' ∧ p₀ = q := by
        cases h
        exact ⟨rfl, rfl⟩
      refine ⟨hp, rfl, ?_⟩
      intro p hmem hname
      rcases List.mem_cons.mp hmem with rfl | hmem₂
      · exact absurd hp hname
      · exact hmem₂
    · rw [if_neg hp] at h
      cases hrec : removeFirst name rest with
      | none => rw [hrec] at h; cases h
      | some pr =>
        obtain ⟨l₂, q₂⟩ := pr
        rw [hrec] at h
        obtain ⟨rfl, rfl⟩ : p₀ :: l₂ = l' ∧ q₂ = q := by
          cases h
          exact ⟨rfl, rfl⟩
        obtain ⟨hq₂, hlen, hsurv⟩ := ih l₂ hrec
        refine ⟨hq₂, by simpa using by omega, ?_⟩
        intro p hmem hname
        rcases List.mem_cons.mp hmem with rfl | hmem₂
        · exact List.mem_cons_self _ _
        · exact List.mem_cons_of_mem _ (hsurv p hmem₂ hname)

/-- The remaining count `remove` returns is the length of the resulting
list. -/
theorem workersRemove_len (w : Workers) (name : String) :
    (workersRemove w name).2.1 = (workersRemove w name).1.list.length := by
  unfold workersRemove
  cases h : removeFirst name w.list with
  | none => simp
  | some pr => simp

/-- Inserting a peer named `n` under service `s` preserves the registry
invariants, whether the pool existed before or is freshly created. -/
theorem registryInv_insert (c : Client) (n s : String) (p : Peer) (w : Workers)
    (hc : RegistryInv c) (hpname : p.name = n)
    (hw : alistGet s c.services = some w ∨
      (alistGet s c.services = none ∧ w = newWorkers)) :
    RegistryInv { c with directory := alistInsert n s c.directory,
                         services := alistInsert s (workersAdd w p).1 c.services } := by
  constructor
  · intro s' w' hget
    dsimp only at hget
    by_cases hss : s' = s
    · subst hss
      rw [alistGet_insert_self] at hget
      obtain rfl := Option.some.inj hget
      exact workersAdd_nonempty w p
    · rw [alistGet_insert_ne _ _ _ _ hss] at hget
      exact hc.1 s' w' hget
  · intro n' s' hget
    dsimp only at hget ⊢
    by_cases hnn : n' = n
    · subst hnn
      rw [alistGet_insert_self] at hget
      obtain rfl := Option.some.inj hget
      obtain ⟨q, hq, hqname⟩ := workersAdd_has_name w p
      exact ⟨(workersAdd w p).1, alistGet_insert_self _ _ _, q, hq, by
        rw [hqname, hpname]⟩
    · rw [alistGet_insert_ne _ _ _ _ hnn] at hget
      obtain ⟨w', hw', q, hq, hqn⟩ := hc.2 n' s' hget
      by_cases hss : s' = s
      · subst hss
        rcases hw with hsome | ⟨hnone, _⟩
        · rw [hsome] at hw'
          obtain rfl := Option.some.inj hw'
          exact ⟨(workersAdd w p).1, alistGet_insert_self _ _ _, q,
            workersAdd_mem w p q hq, hqn⟩
        · rw [hnone] at hw'
          cases hw'
      · exact ⟨w', by rw [alistGet_insert_ne _ _ _ _ hss]; exact hw', q, hq, hqn⟩

/-- A peer-enter event preserves the registry invariants. -/
theorem registryInv_add (c : Client) (g n nd s v : String)
    (hc : RegistryInv c) : RegistryInv (clientAdd c g n nd s v).1 := by
  by_cases h1 : g ≠ c.group
  · simpa [clientAdd, h1] using hc
  · by_cases h2 : nd = "" ∨ s = ""
    · simpa [clientAdd, h1, h2] using hc
    · cases hws : alistGet s c.services with
      | none =>
        have := registryInv_insert c n s
          { name := n, node := nd, service := s, version := v } newWorkers hc rfl
          (Or.inr ⟨hws, rfl⟩)
        simpa [clientAdd, h1, h2, hws] using this
      | some w₀ =>
        have := registryInv_insert c n s
          { name := n, node := nd, service := s, version := v } w₀ hc rfl
          (Or.inl hws)
        simpa [clientAdd, h1, h2, hws] using this

/-- A peer-exit event preserves the registry invariants. -/
theorem registryInv_remove (c : Client) (n : String)
    (hc : RegistryInv c) : RegistryInv (clientRemove c n) := by
  cases hd : alistGet n c.directory with
  | none => simpa [clientRemove, hd] using hc
  | some s =>
    cases hws : alistGet s c.services with
    | none =>
      simp only [clientRemove, hd, hws]
      constructor
      · intro s' w' hget
        exact hc.1 s' w' hget
      · intro n' s' hget
        dsimp only at hget ⊢
        by_cases hnn : n' = n
        · subst hnn
          rw [alistGet_eraseKey_self] at hget
          cases hget
        · rw [alistGet_eraseKey_ne _ _ _ hnn] at hget
          exact hc.2 n' s' hget
    | some w =>
      by_cases hrem : (workersRemove w n).2.1 = 0
      · simp only [clientRemove, hd, hws, hrem, if_true]
        constructor
        · intro s' w' hget
          dsimp only at hget
          by_cases hss : s' = s
          · subst hss
            rw [alistGet_eraseKey_self] at hget
            cases hget
          · rw [alistGet_eraseKey_ne _ _ _ hss] at hget
            exact hc.1 s' w' hget
        · intro n' s' hget
          dsimp only at hget ⊢
          by_cases hnn : n' = n
          · subst hnn
            rw [alistGet_eraseKey_self] at hget
            cases hget
          · rw [alistGet_eraseKey_ne _ _ _ hnn] at hget
            obtain ⟨w', hw', q, hq, hqn⟩ := hc.2 n' s' hget
            by_cases hss : s' = s
            · exfalso
              subst hss
              rw [hws] at hw'
              obtain rfl := Option.some.inj hw'
              cases hrf : removeFirst n w.list with
              | none =>
                unfold workersRemove at hrem
                rw [hrf] at hrem
                simp only at hrem
                rw [List.length_eq_zero] at hrem
                rw [hrem] at hq
                cases hq
              | some pr =>
                obtain ⟨l₂, q₂⟩ := pr
                have hprops := removeFirst_eq_some n w.list l₂ q₂ hrf
                have hql : q ∈ l₂ :=
                  hprops.2.2 q hq (by rw [hqn]; exact hnn)
                unfold workersRemove at hrem
                rw [hrf] at hrem
                simp only at hrem
                rw [List.length_eq_zero] at hrem
                rw [hrem] at hql
                cases hql
            · exact ⟨w', by rw [alistGet_eraseKey_ne _ _ _ hss]; exact hw',
                q, hq, hqn⟩
      · simp only [clientRemove, hd, hws, hrem, if_false]
        constructor
        · intro s' w' hget
          dsimp only at hget
          by_cases hss : s' = s
          · subst hss
            rw [alistGet_insert_self] at hget
            obtain rfl := Option.some.inj hget
            intro hnil
            rw [workersRemove_len, hnil] at hrem
            exact hrem rfl
          · rw [alistGet_insert_ne _ _ _ _ hss] at hget
            exact hc.1 s' w' hget
        · intro n' s' hget
          dsimp only at hget ⊢
          by_cases hnn : n' = n
          · subst hnn
            rw [alistGet_eraseKey_self] at hget
            cases hget
          · rw [alistGet_eraseKey_ne _ _ _ hnn] at hget
            obtain ⟨w', hw', q, hq, hqn⟩ := hc.2 n' s' hget
            by_cases hss : s' = s
            · subst hss
              rw [hws] at hw'
              obtain rfl := Option.some.inj hw'
              refine ⟨(workersRemove w n).1, alistGet_insert_self _ _ _, q, ?_, hqn⟩
              unfold workersRemove
              cases hrf : removeFirst n w.list with
              | none => simpa using hq
              | some pr =>
                obtain ⟨l₂, q₂⟩ := pr
                have hprops := removeFirst_eq_some n w.list l₂ q₂ hrf
                simpa using hprops.2.2 q hq (by rw [hqn]; exact hnn)
            · exact ⟨w', by rw [alistGet_insert_ne _ _ _ _ hss]; exact hw',
                q, hq, hqn⟩

/-- The registry invariants are preserved by any event sequence. -/
theorem regRun_inv (ops : List RegOp) (c : Client) (hc : RegistryInv c) :
    RegistryInv (regRun c ops) := by
  induction ops generalizing c with
  | nil => simpa [regRun] using hc
  | cons op rest ih =>
    have hstep : RegistryInv (regStep c op) := by
      cases op with
      | addPeer g n nd s v => exact registryInv_add c g n nd s v hc
      | removePeer n => exact registryInv_remove c n hc
    simpa [regRun] using ih (regStep c op) hstep

/-- C4: in every client state reachable by any sequence of peer add and
remove operations from a fresh client, every worker pool present in the
registry is non-empty, and every reverse-index entry maps a peer name to a
service whose pool contains a peer with that name. -/
theorem claim_C4_registry_invariants :
    ∀ (g : String) (ops : List RegOp), RegistryInv (regRun (newClient g) ops) := by
  intro g ops
  refine regRun_inv ops (newClient g) ⟨?_, ?_⟩
  · intro s w hget
    cases hget
  · intro n s hget
    cases hget

/-- Witness for C4: after adding two peers of one service and removing
one, the registry still satisfies both invariants at the concrete keys. -/
theorem claim_C4_registry_invariants_witness :
    ∃ w, alistGet "svc"
        (regRun (newClient "G")
          [RegOp.addPeer "G" "a" "na" "svc" "1",
           RegOp.addPeer "G" "b" "nb" "svc" "1",
           RegOp.removePeer "a"]).services = some w ∧
      w.list ≠ [] ∧ ∃ p ∈ w.list, p.name = "b" := by
  have h := claim_C4_registry_invariants "G"
    [RegOp.addPeer "G" "a" "na" "svc" "1",
     RegOp.addPeer "G" "b" "nb" "svc" "1",
     RegOp.removePeer "a"]
  obtain ⟨w, hw, q, hq, hqn⟩ := h.2 "b" "svc" (by decide)
  exact ⟨w, hw, h.1 "svc" w hw, q, hq, hqn⟩

/-- `takeWhile` keeps a whole block of satisfying elements up to the first
failing one. -/
theorem takeWhile_append_stop {α : Type} (p : α → Bool) (l₁ l₂ : List α) (a : α)
    (h : ∀ c ∈ l₁, p c = true) (ha : p a = false) :
    (l₁ ++ a :: l₂).takeWhile p = l₁ := by
  induction l₁ with
  | nil => simp [List.takeWhile_cons, ha]
  | cons c rest ih =>
    have hc : p c = true := h c (List.mem_cons_self c rest)
    simp only [List.cons_append, List.takeWhile_cons, hc, if_true]
    rw [ih (fun c₂ hc₂ => h c₂ (List.mem_cons_of_mem c hc₂))]

/-- `dropWhile` drops a whole block of satisfying elements up to the first
failing one. -/
theorem dropWhile_append_stop {α : Type} (p : α → Bool) (l₁ l₂ : List α) (a : α)
    (h : ∀ c ∈ l₁, p c = true) (ha : p a = false) :
    (l₁ ++ a :: l₂).dropWhile p = a :: l₂ := by
  induction l₁ with
  | nil => simp [List.dropWhile_cons, ha]
  | cons c rest ih =>
    have hc : p c = true := h c (List.mem_cons_self c rest)
    simp only [List.cons_append, List.dropWhile_cons, hc, if_true]
    exact ih (fun c₂ hc₂ => h c₂ (List.mem_cons_of_mem c hc₂))

/-- `takeWhile` of an all-satisfying list is the list itself. -/
theorem takeWhile_eq_self_of_all {α : Type} (p : α → Bool) (l : List α)
    (h : ∀ c ∈ l, p c = true) : l.takeWhile p = l := by
  induction l with
  | nil => rfl
  | cons c rest ih =>
    have hc : p c = true := h c (List.mem_cons_self c rest)
    simp only [List.takeWhile_cons, hc, if_true]
    rw [ih (fun c₂ hc₂ => h c₂ (List.mem_cons_of_mem c hc₂))]

/-- `dropWhile` of an all-satisfying list is empty. -/
theorem dropWhile_eq_nil_of_all {α : Type} (p : α → Bool) (l : List α)
    (h : ∀ c ∈ l, p c = true) : l.dropWhile p = [] := by
  induction l with
  | nil => rfl
  | cons c rest ih =>
    have hc : p c = true := h c (List.mem_cons_self c rest)
    simp only [List.dropWhile_cons, hc, if_true]
    exact ih (fun c₂ hc₂ => h c₂ (List.mem_cons_of_mem c hc₂))

/-- The length prefix of `encChars` is read back exactly: the colon stops
the unary count. -/
theorem takeWhile_replicate_hash (n : Nat) (t : List Char) :
    (List.replicate n '#' ++ ':' :: t).takeWhile (fun c => c = '#') =
      List.replicate n '#' := by
  refine takeWhile_append_stop _ _ _ _ ?_ (by decide)
  intro c hc
  rw [List.eq_of_mem_replicate hc]
  decide

/-- `decChars` inverts `encChars` and returns the remainder. -/
theorem decChars_enc (xs rest : List Char) :
    decChars (encChars xs ++ rest) = some (xs, rest) := by
  have h1 : (encChars xs ++ rest).takeWhile (fun c => c = '#') =
      List.replicate xs.length '#' := by
    unfold encChars
    rw [List.append_assoc, List.cons_append]
    exact takeWhile_replicate_hash xs.length (xs ++ rest)
  have h2 : (encChars xs ++ rest).drop xs.length = ':' :: (xs ++ rest) := by
    unfold encChars
    rw [List.append_assoc, List.cons_append]
    exact List.drop_left' (List.length_replicate xs.length '#')
  unfold decChars
  simp only [h1, List.length_replicate, h2]
  rw [List.take_left, List.drop_left]

/-- `decStr` inverts `encStr`. -/
theorem decStr_enc (s : String) (rest : List Char) :
    decStr (encStr s ++ rest) = some (s, rest) := by
  unfold decStr encStr
  rw [decChars_enc]
  rfl

/-- `decNat` inverts `encNat`. -/
theorem decNat_enc (n : Nat) (rest : List Char) :
    decNat (encNat n ++ rest) = some (n, rest) := by
  have h1 : (encNat n ++ rest).takeWhile (fun c => c = '#') =
      List.replicate n '#' := by
    unfold encNat
    rw [List.append_assoc, List.singleton_append]
    exact takeWhile_replicate_hash n rest
  have h2 : (encNat n ++ rest).drop n = ':' :: rest := by
    unfold encNat
    rw [List.append_assoc, List.singleton_append]
    exact List.drop_left' (List.length_replicate n '#')
  unfold decNat
  simp only [h1, List.length_replicate, h2]

/-- `decListAux` reads back exactly the encoded items. -/
theorem decListAux_enc {α : Type} (dec : List Char → Option (α × List Char))
    (enc : α → List Char)
    (henc : ∀ (a : α) (rest : List Char), dec (enc a ++ rest) = some (a, rest))
    (l : List α) (rest : List Char) :
    decListAux dec l.length ((l.map enc).flatten ++ rest) = some (l, rest) := by
  induction l generalizing rest with
  | nil => simp [decListAux]
  | cons a t ih =>
    simp only [List.map_cons, List.flatten_cons, List.length_cons,
      List.append_assoc]
    unfold decListAux
    rw [henc]
    simp [ih]

/-- `decList` inverts `encList`. -/
theorem decList_enc {α : Type} (dec : List Char → Option (α × List Char))
    (enc : α → List Char)
    (henc : ∀ (a : α) (rest : List Char), dec (enc a ++ rest) = some (a, rest))
    (l : List α) (rest : List Char) :
    decList dec (encList enc l ++ rest) = some (l, rest) := by
  unfold decList encList
  rw [List.append_assoc, decNat_enc]
  exact decListAux_enc dec enc henc l rest

/-- `decHeaderPair` inverts `encHeaderPair`. -/
theorem decHeaderPair_enc (kv : String × List String) (rest : List Char) :
    decHeaderPair (encHeaderPair kv ++ rest) = some (kv, rest) := by
  obtain ⟨k, vs⟩ := kv
  unfold decHeaderPair encHeaderPair
  dsimp only
  rw [List.append_assoc, decStr_enc]
  dsimp only
  rw [decList_enc decStr encStr decStr_enc]

/-- The JSON model decodes every encoded request record back to itself. -/
theorem jsonDecodeReq_enc (r : WireRequest) :
    jsonDecodeReq (jsonEncodeReq r) = some r := by
  obtain ⟨b, d, h, hdr, m, u⟩ := r
  unfold jsonDecodeReq jsonEncodeReq
  rw [show encStr u = encStr u ++ ([] : List Char) from (List.append_nil _).symm]
  simp only [List.append_assoc]
  rw [decChars_enc]
  simp only [Option.some_bind]
  rw [decStr_enc]
  simp only [Option.some_bind]
  rw [decStr_enc]
  simp only [Option.some_bind]
  rw [decList_enc decHeaderPair encHeaderPair decHeaderPair_enc]
  simp only [Option.some_bind]
  rw [decStr_enc]
  simp only [Option.some_bind]
  rw [decStr_enc]
  simp only [Option.some_bind]
  rfl

/-- Parsing the rendering of a scheme-and-host-erased URL recovers its
path and raw query, provided the path contains no query separator (Go
would percent-escape one; escaping is outside the model). -/
theorem urlParse_urlString_erased (pth q : String) (hp : '?' ∉ pth.toList) :
    urlParse (urlString { scheme := "", host := "", path := pth, rawQuery := q }) =
      some { scheme := "", host := "", path := pth, rawQuery := q } := by
  have hall : ∀ c ∈ pth.toList, (fun c => decide (c ≠ '?')) c = true := by
    intro c hc
    simp only [decide_eq_true_eq, ne_eq]
    exact fun e => hp (e ▸ hc)
  by_cases hq : q = ""
  · subst hq
    have hs : urlString { scheme := "", host := "", path := pth, rawQuery := "" } = pth := by
      simp [urlString]
    rw [hs]
    unfold urlParse
    simp only [takeWhile_eq_self_of_all _ _ hall, dropWhile_eq_nil_of_all _ _ hall]
    rfl
  · have hs : (urlString { scheme := "", host := "", path := pth, rawQuery := q }).toList =
        pth.toList ++ '?' :: q.toList := by
      simp [urlString, hq, String.toList, String.data_append]
    unfold urlParse
    rw [hs]
    simp only
      [takeWhile_append_stop (fun c => decide (c ≠ '?')) pth.toList q.toList '?' hall (by decide),
       dropWhile_append_stop (fun c => decide (c ≠ '?')) pth.toList q.toList '?' hall (by decide)]
    rfl

/-- C7: unmarshalling the marshalled frame body (ignoring the
group+`REPL` prefix) reconstructs an HTTP request with method, URL path
and query, headers, and body equal to the original's, and with the URL's
scheme and host erased; the destination carries the group, handle and
origin node. The hypotheses confine the URL to shapes the unescaping-free
URL model renders and reparses exactly as Go does. -/
theorem claim_C7_request_roundtrip :
    ∀ (group dest handle : String) (req : HttpRequest),
      req.method ≠ "" →
      '?' ∉ req.url.path.toList →
      '#' ∉ req.url.path.toList → '#' ∉ req.url.rawQuery.toList →
      req.url.path.toList.take 1 = ['/'] →
      req.url.path.toList.take 2 ≠ ['/', '/'] →
      reqUnmarshal group ((reqMarshal group dest handle req).drop (group.length + 4)) =
        .ok ({ group := group, handle := handle, node := dest },
          { method := req.method,
            url := { scheme := "", host := "", path := req.url.path,
                     rawQuery := req.url.rawQuery },
            header := req.header, body := req.body }) := by
  intro g d h req hm hp hf1 hf2 hs1 hs2
  have hlen : (g.toList ++ repl.toList).length = g.length + 4 := by
    rw [List.length_append]
    have h1 : g.toList.length = g.length := rfl
    have h2 : repl.toList.length = 4 := by decide
    rw [h1, h2]
  have hdrop : (reqMarshal g d h req).drop (g.length + 4) =
      zip (jsonEncodeReq
        { body := req.body, destination := d, handle := h,
          header := req.header, method := req.method,
          url := urlString { req.url with scheme := "", host := "" } }) := by
    unfold reqMarshal
    dsimp only
    exact List.drop_left' hlen
  rw [hdrop]
  unfold reqUnmarshal
  rw [unzip_zip]
  dsimp only
  rw [jsonDecodeReq_enc]
  dsimp only
  have hurl : urlParse (urlString { req.url with scheme := "", host := "" }) =
      some { scheme := "", host := "", path := req.url.path,
             rawQuery := req.url.rawQuery } :=
    urlParse_urlString_erased req.url.path req.url.rawQuery hp
  unfold httpNewRequest
  rw [hurl]
  dsimp only
  rw [if_neg hm]

/-- Witness for C7: the round trip on the concrete example request. -/
theorem claim_C7_request_roundtrip_witness :
    reqUnmarshal "G" ((reqMarshal "G" "D" "7" egRequest).drop ("G".length + 4)) =
      .ok ({ group := "G", handle := "7", node := "D" },
        { method := "GET",
          url := { scheme := "", host := "", path := "/x", rawQuery := "q=1" },
          header := [("A", ["b"])], body := ['h', 'i'] }) := by
  have h := claim_C7_request_roundtrip "G" "D" "7" egRequest (by decide)
    (by decide) (by decide) (by decide) (by decide) (by decide)
  simpa [egRequest] using h

end Sleuth
